import Mathlib

/-!
Shallow embedding of the probabilistic streaming toolkit implemented in the
nus-cs5228 teaching notebooks: the basic and counting Bloom filters
(Data Stream Mining: Bloom Filter), the Flajolet-Martin distinct counter
(Data Stream Mining: Distinct Counting), and the keyed probabilistic sampler
and reservoir sampler (Dimensionality Reduction notebook).

The SHA-1 based hash function
  h(s, num_digits, nr) = int(sha1((s*nr).utf8).hexdigest(), 16) % 10^num_digits
is a deterministic pure function of its arguments; it is modelled throughout
as an explicit function parameter `h : String → Nat → Nat → Nat`
(key, num_digits, nr), so every theorem quantifies over the hash family.
Randomness (np.random.randint, np.random.shuffle) is likewise injected as an
explicit argument together with the predicate describing which values the
generator can produce.
-/

namespace CS5228

/-! ### Basic Bloom filter (notebook `Data Stream Mining: Bloom Filter`) -/

/-- `init_B(num_buckets)`: bit array of `num_buckets` bits, all set to 0. -/
def init_B (num_buckets : Nat) : List Bool :=
  List.replicate num_buckets false

/-- `add_key(s, B, num_digits, num_hash_functions)`: for `nr` in
`1..num_hash_functions`, set `B[h(s, num_digits, nr)] = 1`. -/
def add_key (h : String → Nat → Nat → Nat) (s : String) (B : List Bool)
    (num_digits num_hash_functions : Nat) : List Bool :=
  (List.range num_hash_functions).foldl
    (fun acc i => acc.set (h s num_digits (i + 1)) true) B

/-- `fill_B(S, B, num_digits, num_hash_functions)`: add every key of `S`. -/
def fill_B (h : String → Nat → Nat → Nat) (S : List String) (B : List Bool)
    (num_digits num_hash_functions : Nat) : List Bool :=
  S.foldl (fun acc s => add_key h s acc num_digits num_hash_functions) B

/-- `check_key(s, B, num_digits, num_hash_functions)`: sum the bits at the
`num_hash_functions` hashed positions and compare the count with
`num_hash_functions`. -/
def check_key (h : String → Nat → Nat → Nat) (s : String) (B : List Bool)
    (num_digits num_hash_functions : Nat) : Bool :=
  ((List.range num_hash_functions).foldl
    (fun cnt i => cnt + (if B.getD (h s num_digits (i + 1)) false then 1 else 0)) 0)
    == num_hash_functions

/-! ### Counting Bloom filter -/

/-- `init_counting_B(num_buckets, bits_per_counter)`: bit array of
`num_buckets * bits_per_counter` bits, all 0. -/
def init_counting_B (num_buckets bits_per_counter : Nat) : List Bool :=
  List.replicate (num_buckets * bits_per_counter) false

/-- Models `bitarray.util.ba2int` on a big-endian bit array: the most
significant bit comes first. -/
def ba2int : List Bool → Nat
  | [] => 0
  | b :: bs => (if b then 1 else 0) * 2 ^ bs.length + ba2int bs

/-- Models `bitarray(format(v, '0{w}b'))`: the `w`-bit big-endian, zero-padded
binary representation of `v`.  (`update_counter` only calls this with
`v < 2^w`, which the guard in `update_counter` enforces.) -/
def int2ba : Nat → Nat → List Bool
  | 0, _ => []
  | w + 1, v => decide (2 ^ w ≤ v) :: int2ba w (v % 2 ^ w)

/-- The slice read `B[pos*w : pos*w + w]`. -/
def readSlice (B : List Bool) (start width : Nat) : List Bool :=
  (B.drop start).take width

/-- The slice assignment `B[start : start + repl.length] = repl` (for an
in-bounds slice of matching length, which is the only way the source uses it). -/
def setSlice (B : List Bool) (start : Nat) (repl : List Bool) : List Bool :=
  B.take start ++ repl ++ B.drop (start + repl.length)

/-- `update_counter(counter, bits_per_counter, update)`: convert the counter
bits to an integer, add or subtract one, raise on underflow or overflow, and
otherwise return the zero-padded `bits_per_counter`-bit representation. -/
def update_counter (counter : List Bool) (bits_per_counter : Nat)
    (update : String) : Except String (List Bool) :=
  let int_val : Int :=
    if update = "inc" then (ba2int counter : Int) + 1 else (ba2int counter : Int) - 1
  if int_val < 0 then
    .error "Error: bit counter < 0"
  else if (2 : Int) ^ bits_per_counter ≤ int_val then
    .error "Error: counter larger than max size"
  else
    .ok (int2ba bits_per_counter int_val.toNat)

/-- The body of the `update_key` loop, run over the list of hashed positions.
In the source, `B` is mutated in place and an exception aborts the loop, so on
failure the counters written by earlier iterations stay modified: the state at
the moment of the exception is returned alongside the error message. -/
def update_key_go (positions : List Nat) (B : List Bool)
    (bits_per_counter : Nat) (upd : String) : List Bool × Option String :=
  match positions with
  | [] => (B, none)
  | pos :: rest =>
    let counter := readSlice B (pos * bits_per_counter) bits_per_counter
    match update_counter counter bits_per_counter upd with
    | .error e => (B, some e)
    | .ok c => update_key_go rest (setSlice B (pos * bits_per_counter) c) bits_per_counter upd

/-- The list of positions `h(s, num_digits, nr)` for `nr = 1..num_hash_functions`. -/
def hashPositions (h : String → Nat → Nat → Nat) (s : String)
    (num_digits num_hash_functions : Nat) : List Nat :=
  (List.range num_hash_functions).map (fun i => h s num_digits (i + 1))

/-- `update_key(s, B, num_digits, num_hash_functions, bits_per_counter, update)`:
for each hashed position, read the counter slice, update it
(`'inc'` when `update == 'insert'`, else `'dec'`) and write it back.
Returns the final state of `B` together with the raised exception, if any. -/
def update_key (h : String → Nat → Nat → Nat) (s : String) (B : List Bool)
    (num_digits num_hash_functions bits_per_counter : Nat) (update : String) :
    List Bool × Option String :=
  update_key_go (hashPositions h s num_digits num_hash_functions) B bits_per_counter
    (if update = "insert" then "inc" else "dec")

/-- `insert_key` calls `update_key` with `update='insert'`. -/
def insert_key (h : String → Nat → Nat → Nat) (s : String) (B : List Bool)
    (num_digits num_hash_functions bits_per_counter : Nat) : List Bool × Option String :=
  update_key h s B num_digits num_hash_functions bits_per_counter "insert"

/-- `delete_key` calls `update_key` with `update='delete'`. -/
def delete_key (h : String → Nat → Nat → Nat) (s : String) (B : List Bool)
    (num_digits num_hash_functions bits_per_counter : Nat) : List Bool × Option String :=
  update_key h s B num_digits num_hash_functions bits_per_counter "delete"

/-- Repeat a fallible in-place operation `n` times, stopping at the first
raised exception (as the notebook's test loops do). -/
def repeat_op (f : List Bool → List Bool × Option String) :
    Nat → List Bool → List Bool × Option String
  | 0, B => (B, none)
  | n + 1, B =>
    match f B with
    | (B', none) => repeat_op f n B'
    | (B', some e) => (B', some e)

/-! ### Flajolet-Martin distinct counter
(notebook `Data Stream Mining: Distinct Counting`) -/

/-- Trailing-zero count, structurally recursive on a fuel argument.
With `fuel ≥ x ≥ 1` the fuel never runs out. -/
def tzAux : Nat → Nat → Nat
  | 0, _ => 0
  | fuel + 1, x => if x % 2 = 1 then 0 else tzAux fuel (x / 2) + 1

/-- `get_r(x) = int(np.log2(x & -x))`: for `x > 0`, `x & -x` is the lowest set
bit `2^r`, so the result is the trailing-zero count `r` of `x`.  For `x = 0`,
`np.log2(0)` is `-inf` and `int(-inf)` raises `OverflowError`; the raised
exception is modelled as `none`. -/
def get_r (x : Nat) : Option Nat :=
  if x = 0 then none else some (tzAux x x)

/-- One pass of the tracker-update loop
`for i in range(num_hashes): r = get_r(...); if r > Rs[i]: Rs[i] = r`,
over the tail of `Rs` starting at index `i`; `rv i` is the value
`get_r(h(ip, nr=i+1, num_digits))`, `none` when `get_r` raises. -/
def ingest_aux (rv : Nat → Option Nat) : Nat → List Nat → Option (List Nat)
  | _, [] => some []
  | i, R :: rest =>
    match rv i with
    | none => none
    | some r => (ingest_aux rv (i + 1) rest).map (fun rest' => max R r :: rest')

/-- Ingest one key: update every tracker `Rs[i]` with
`r = get_r(h(key, num_digits, i+1))` via `if r > Rs[i]: Rs[i] = r`
(that is, `Rs[i] := max Rs[i] r`). -/
def ingest_key (h : String → Nat → Nat → Nat) (num_digits : Nat) (key : String)
    (Rs : List Nat) : Option (List Nat) :=
  ingest_aux (fun i => get_r (h key num_digits (i + 1))) 0 Rs

/-- Ingest a stream of keys in order, starting from the given trackers. -/
def ingest_stream (h : String → Nat → Nat → Nat) (num_digits : Nat)
    (keys : List String) (Rs : List Nat) : Option (List Nat) :=
  keys.foldlM (fun acc key => ingest_key h num_digits key acc) Rs

/-- The `r` value of `key` under hash function `j` (0-based), defaulting to 0;
under the no-zero-hash hypotheses of the theorems below `get_r` never raises,
so the default is never used. -/
def rval (h : String → Nat → Nat → Nat) (num_digits : Nat) (key : String)
    (j : Nat) : Nat :=
  (get_r (h key num_digits (j + 1))).getD 0

/-- `np.split(arr, n)`: split into `n` equal sections of `len / n` elements
each (numpy raises unless `n` divides `len`; the theorems assume
divisibility, as the notebook's `num_hashes = num_samples_per_group *
num_groups` guarantees). -/
def np_split (l : List ℚ) (n : Nat) : List (List ℚ) :=
  (List.range n).map (fun i => (l.drop (i * (l.length / n))).take (l.length / n))

/-- `np.median`: middle element of the sorted data for odd length, average of
the two middle elements for even length. -/
def np_median (l : List ℚ) : ℚ :=
  let s := l.insertionSort (· ≤ ·)
  if l.length % 2 = 1 then s.getD (l.length / 2) 0
  else (s.getD (l.length / 2 - 1) 0 + s.getD (l.length / 2) 0) / 2

/-- `np.mean`: arithmetic mean. -/
def np_mean (l : List ℚ) : ℚ := l.sum / l.length

/-- The per-function raw estimates `np.power(2, Rs)`. -/
def raw_estimates (Rs : List Nat) : List ℚ :=
  Rs.map (fun r => (2 : ℚ) ^ r)

/-- The final-aggregation cell: split the (shuffled) estimates into
`num_groups` groups, collect `np.median` of each split, and return
`np.mean(medians)`.  `shuffled` is the state of the `estimates` array after
`np.random.shuffle`, injected explicitly. -/
def final_estimate (shuffled : List ℚ) (num_groups : Nat) : ℚ :=
  let medians := (np_split shuffled num_groups).map np_median
  np_mean medians

/-! ### Keyed probabilistic sampler
(notebook `Dimensionality Reduction (1 IRIS Dataset)`) -/

/-- The sampling decision `h(ip, b) < a` applied to a key.  The notebook's
key hash `h(s, num_buckets)` has no family index; it is the member `nr = 0`
of the hash family, modelled as `hk : String → Nat → Nat` (key, num_buckets). -/
def accept (hk : String → Nat → Nat) (key : String) (a b : Nat) : Bool :=
  hk key b < a

/-- The sampling loop: keep exactly the records whose key passes
`h(ip, b) < a`. -/
def keyed_sample (hk : String → Nat → Nat) (stream : List String)
    (a b : Nat) : List String :=
  stream.filter (fun ip => hk ip b < a)

/-! ### Reservoir sampler
(notebook `Dimensionality Reduction (1 IRIS Dataset)`) -/

/-- `handle_new_item(t, item)` with reservoir capacity `B`; `t` is the
0-based index of the incoming item (`for t, item in enumerate(stream)`).
If `t < B`, fill slot `t`; otherwise `draw` is the value of
`np.random.randint(0, t)` (injected), and the item overwrites slot `draw`
when `draw < len(RESERVOIR)`, else it is discarded.  The `'_'` placeholder
marking an empty bucket is modelled as `none`. -/
def handle_new_item (B : Nat) (t : Nat) (item : α) (res : List (Option α))
    (draw : Nat) : List (Option α) :=
  if t < B then res.set t (some item)
  else if draw < res.length then res.set draw (some item)
  else res

/-- The support of `np.random.randint(0, t)`: the `t` values `0..t-1`
(numpy raises `ValueError` when `t = 0`, so an empty support means the call
cannot return at all). -/
def randint_support (t : Nat) : List Nat := List.range t

/-- The driver loop `for t, item in enumerate(stream): handle_new_item(t, item)`
starting from index `t0`. -/
def run_reservoir_aux (B : Nat) (draws : Nat → Nat) :
    List α → Nat → List (Option α) → List (Option α)
  | [], _, res => res
  | it :: rest, t, res => run_reservoir_aux B draws rest (t + 1) (handle_new_item B t it res (draws t))

/-- Run the reservoir sampler over a stream from the initial state
`RESERVOIR = ['_'] * B`; `draws t` is the value `np.random.randint(0, t)`
returns at step `t` (consulted only once the reservoir is full). -/
def run_reservoir (B : Nat) (draws : Nat → Nat) (stream : List α) :
    List (Option α) :=
  run_reservoir_aux B draws stream 0 (List.replicate B none)

/-- Modelled from the spec: the `observe(item)` step of §4.4, written with
the 1-indexed count `t` of items observed so far including the current one.
If `t ≤ B`, place the item into slot `t-1`; otherwise `p` is the uniformly
drawn integer from the `t` values `[0, t-1]`, the item overwrites slot `p`
when `p < B`, and is discarded otherwise.  Used only to compare the spec's
description with the source's `handle_new_item`. -/
def observe_step_spec (B : Nat) (t : Nat) (item : α) (res : List (Option α))
    (p : Nat) : List (Option α) :=
  if t ≤ B then res.set (t - 1) (some item)
  else if p < B then res.set p (some item)
  else res

/-! ### Helper lemmas: slices of bit arrays -/

theorem length_setSlice (B u : List Bool) (s : Nat) (hs : s + u.length ≤ B.length) :
    (setSlice B s u).length = B.length := by
  simp only [setSlice, List.length_append, List.length_take, List.length_drop]
  omega

theorem getElem?_setSlice (B u : List Bool) (s i : Nat) (hs : s + u.length ≤ B.length) :
    (setSlice B s u)[i]? = if s ≤ i ∧ i < s + u.length then u[i - s]? else B[i]? := by
  have ht : (B.take s).length = s := by
    simp only [List.length_take]; omega
  by_cases h1 : i < s
  · rw [if_neg (by omega)]
    rw [setSlice, List.append_assoc, List.getElem?_append_left (by omega), List.getElem?_take_of_lt h1]
  · by_cases h2 : i < s + u.length
    · rw [if_pos ⟨by omega, h2⟩]
      rw [setSlice, List.append_assoc, List.getElem?_append_right (by omega), ht,
        List.getElem?_append_left (by omega)]
    · rw [if_neg (by omega)]
      rw [setSlice, List.append_assoc, List.getElem?_append_right (by omega), ht,
        List.getElem?_append_right (by omega), List.getElem?_drop]
      congr 1
      omega

theorem length_readSlice (B : List Bool) (s w : Nat) (hs : s + w ≤ B.length) :
    (readSlice B s w).length = w := by
  simp only [readSlice, List.length_take, List.length_drop]
  omega

theorem getElem?_readSlice (B : List Bool) (s w j : Nat) (hj : j < w) :
    (readSlice B s w)[j]? = B[s + j]? := by
  rw [readSlice, List.getElem?_take_of_lt hj, List.getElem?_drop]

theorem readSlice_congr (B B' : List Bool) (s w : Nat)
    (hB : s + w ≤ B.length) (hB' : s + w ≤ B'.length)
    (h : ∀ i, s ≤ i → i < s + w → B'[i]? = B[i]?) :
    readSlice B' s w = readSlice B s w := by
  apply List.ext_getElem?
  intro j
  by_cases hj : j < w
  · rw [getElem?_readSlice _ _ _ _ hj, getElem?_readSlice _ _ _ _ hj]
    exact h (s + j) (by omega) (by omega)
  · rw [List.getElem?_eq_none, List.getElem?_eq_none]
    · rw [length_readSlice _ _ _ hB]; omega
    · rw [length_readSlice _ _ _ hB']; omega

theorem readSlice_setSlice_self (B u : List Bool) (s : Nat)
    (hs : s + u.length ≤ B.length) :
    readSlice (setSlice B s u) s u.length = u := by
  apply List.ext_getElem?
  intro j
  by_cases hj : j < u.length
  · rw [getElem?_readSlice _ _ _ _ hj, getElem?_setSlice _ _ _ _ hs,
      if_pos ⟨by omega, by omega⟩]
    congr 1
    omega
  · rw [List.getElem?_eq_none, List.getElem?_eq_none (by omega)]
    rw [length_readSlice]
    · omega
    · rw [length_setSlice _ _ _ hs]; omega

theorem readSlice_setSlice_other (B u : List Bool) (w p q : Nat)
    (hc : u.length = w) (hp : p * w + w ≤ B.length) (hq : q * w + w ≤ B.length)
    (hne : q ≠ p) :
    readSlice (setSlice B (p * w) u) (q * w) w = readSlice B (q * w) w := by
  have hlen : (setSlice B (p * w) u).length = B.length :=
    length_setSlice _ _ _ (by omega)
  apply readSlice_congr _ _ _ _ (by omega) (by omega)
  intro i hi1 hi2
  rw [getElem?_setSlice _ _ _ _ (by omega), if_neg]
  rw [hc]
  rcases Nat.lt_or_ge q p with hqp | hpq
  · have : q * w + w ≤ p * w := by
      calc q * w + w = (q + 1) * w := by ring
      _ ≤ p * w := Nat.mul_le_mul_right w hqp
    omega
  · have hqp' : p < q := by omega
    have : p * w + w ≤ q * w := by
      calc p * w + w = (p + 1) * w := by ring
      _ ≤ q * w := Nat.mul_le_mul_right w hqp'
    omega

/-! ### Helper lemmas: `ba2int` and `int2ba` -/

theorem length_int2ba (w v : Nat) : (int2ba w v).length = w := by
  induction w generalizing v with
  | zero => rfl
  | succ w ih => simp [int2ba, ih]

theorem ba2int_lt (bs : List Bool) : ba2int bs < 2 ^ bs.length := by
  induction bs with
  | nil => simp [ba2int]
  | cons b rest ih =>
    simp only [ba2int, List.length_cons, pow_succ]
    rcases b with _ | _ <;> simp <;> omega

theorem ba2int_int2ba (w v : Nat) (hv : v < 2 ^ w) : ba2int (int2ba w v) = v := by
  induction w generalizing v with
  | zero =>
    simp only [int2ba, ba2int]
    omega
  | succ w ih =>
    have hmod : v % 2 ^ w < 2 ^ w := Nat.mod_lt _ (Nat.pos_pow_of_pos w (by omega))
    simp only [int2ba, ba2int, length_int2ba, ih _ hmod]
    by_cases hbit : 2 ^ w ≤ v
    · rw [if_pos (by simpa using hbit)]
      have : v - 2 ^ w < 2 ^ w := by
        rw [pow_succ] at hv; omega
      rw [(Nat.mod_eq_sub_mod hbit), Nat.mod_eq_of_lt this]
      omega
    · rw [if_neg (by simpa using hbit)]
      rw [Nat.mod_eq_of_lt (by omega)]
      omega

theorem ba2int_replicate_false (n : Nat) : ba2int (List.replicate n false) = 0 := by
  induction n with
  | zero => rfl
  | succ n ih => simp [List.replicate_succ, ba2int, ih]

theorem readSlice_replicate_false (n s w : Nat) :
    readSlice (List.replicate n false) s w = List.replicate (min w (n - s)) false := by
  simp [readSlice, List.drop_replicate, List.take_replicate]

/-! ### Helper lemmas: arithmetic of counter slots -/

theorem slot_bound {p nb : Nat} (w : Nat) (h : p < nb) : p * w + w ≤ nb * w := by
  calc p * w + w = (p + 1) * w := by ring
  _ ≤ nb * w := Nat.mul_le_mul_right w h

theorem slot_disjoint {q p : Nat} (w : Nat) (h : q < p) : q * w + w ≤ p * w := by
  calc q * w + w = (q + 1) * w := by ring
  _ ≤ p * w := Nat.mul_le_mul_right w h

/-! ### Helper lemmas: `update_counter` -/

theorem ok_branch_length (w : Nat) (iv : Int) (r : List Bool)
    (h : (if iv < 0 then (Except.error "Error: bit counter < 0" : Except String (List Bool))
      else if (2 : Int) ^ w ≤ iv then Except.error "Error: counter larger than max size"
      else Except.ok (int2ba w iv.toNat)) = Except.ok r) : r.length = w := by
  split at h
  · exact absurd h (by simp)
  · split at h
    · exact absurd h (by simp)
    · rw [Except.ok.injEq] at h
      rw [← h, length_int2ba]

theorem update_counter_ok_length (u r : List Bool) (w : Nat) (upd : String)
    (h : update_counter u w upd = .ok r) : r.length = w := by
  apply ok_branch_length w _ r
  simpa only [update_counter] using h

theorem update_counter_inc (u : List Bool) (w : Nat) :
    update_counter u w "inc" =
      if ba2int u + 1 < 2 ^ w then .ok (int2ba w (ba2int u + 1))
      else .error "Error: counter larger than max size" := by
  have hcast : ((2 : Int) ^ w) = ((2 ^ w : Nat) : Int) := by push_cast; ring
  have h0 : ¬((ba2int u : Int) + 1 < 0) := by omega
  simp only [update_counter, eq_self_iff_true, if_true, hcast, if_neg h0]
  by_cases hlt : ba2int u + 1 < 2 ^ w
  · have h1 : ¬(((2 ^ w : Nat) : Int) ≤ (ba2int u : Int) + 1) := by omega
    rw [if_neg h1, if_pos hlt]
    congr 1
  · have h1 : ((2 ^ w : Nat) : Int) ≤ (ba2int u : Int) + 1 := by omega
    rw [if_pos h1, if_neg hlt]

theorem update_counter_dec (u : List Bool) (w : Nat) (hlt : ba2int u < 2 ^ w) :
    update_counter u w "dec" =
      if ba2int u = 0 then .error "Error: bit counter < 0"
      else .ok (int2ba w (ba2int u - 1)) := by
  have hcast : ((2 : Int) ^ w) = ((2 ^ w : Nat) : Int) := by push_cast; ring
  have hne : ¬(("dec" : String) = "inc") := by decide
  simp only [update_counter, if_neg hne, hcast]
  by_cases hz : ba2int u = 0
  · have h0 : (ba2int u : Int) - 1 < 0 := by omega
    rw [if_pos h0, if_pos hz]
  · have h0 : ¬((ba2int u : Int) - 1 < 0) := by omega
    have h1 : ¬(((2 ^ w : Nat) : Int) ≤ (ba2int u : Int) - 1) := by omega
    rw [if_neg h0, if_neg h1, if_neg hz]
    have htn : ((ba2int u : Int) - 1).toNat = ba2int u - 1 := by omega
    rw [htn]

/-! ### Helper lemmas: `update_key_go` -/

theorem update_key_go_frame (nb w : Nat) (ps : List Nat) (B B' : List Bool)
    (upd : String)
    (hbound : ∀ p ∈ ps, p < nb) (hlen : B.length = nb * w)
    (heq : update_key_go ps B w upd = (B', none)) :
    B'.length = nb * w ∧
      ∀ i, (∀ p ∈ ps, i < p * w ∨ p * w + w ≤ i) → B'[i]? = B[i]? := by
  induction ps generalizing B with
  | nil =>
    simp only [update_key_go, Prod.mk.injEq] at heq
    rw [← heq.1]
    exact ⟨hlen, fun i _ => rfl⟩
  | cons p rest ih =>
    simp only [update_key_go] at heq
    rcases hc : update_counter (readSlice B (p * w) w) w upd with e | u
    · rw [hc] at heq
      simp at heq
    · rw [hc] at heq
      have hu : u.length = w := update_counter_ok_length _ _ _ _ hc
      have hpw : p * w + u.length ≤ B.length := by
        rw [hu, hlen]
        exact slot_bound w (hbound p (List.mem_cons_self p rest))
      have hlen1 : (setSlice B (p * w) u).length = nb * w := by
        rw [length_setSlice _ _ _ hpw, hlen]
      obtain ⟨hL, hF⟩ := ih (setSlice B (p * w) u)
        (fun q hq => hbound q (List.mem_cons_of_mem _ hq)) hlen1 heq
      refine ⟨hL, fun i hi => ?_⟩
      rw [hF i (fun q hq => hi q (List.mem_cons_of_mem _ hq))]
      rw [getElem?_setSlice _ _ _ _ hpw, if_neg]
      have := hi p (List.mem_cons_self p rest)
      rw [hu]
      omega

theorem counters_after_setSlice (nb w : Nat) (B u : List Bool) (p : Nat)
    (rest : List Nat) (hu : u.length = w)
    (hpnb : p < nb) (hrest : ∀ q ∈ rest, q < nb) (hnotmem : p ∉ rest)
    (hlen : B.length = nb * w) :
    ∀ q ∈ rest, readSlice (setSlice B (p * w) u) (q * w) w = readSlice B (q * w) w := by
  intro q hq
  have hqw : q * w + w ≤ B.length := by rw [hlen]; exact slot_bound w (hrest q hq)
  have hpw : p * w + w ≤ B.length := by rw [hlen]; exact slot_bound w hpnb
  have hqp : q ≠ p := fun hqp => hnotmem (hqp ▸ hq)
  exact readSlice_setSlice_other _ _ _ _ _ hu hpw hqw hqp

theorem frame_keeps_slot (nb w : Nat) (B1 B' : List Bool) (p : Nat)
    (rest : List Nat) (upd : String)
    (hbound : ∀ q ∈ rest, q < nb) (hpnb : p < nb) (hnotmem : p ∉ rest)
    (hlen1 : B1.length = nb * w)
    (heq : update_key_go rest B1 w upd = (B', none)) :
    readSlice B' (p * w) w = readSlice B1 (p * w) w := by
  obtain ⟨hL, hF⟩ := update_key_go_frame nb w rest B1 B' upd hbound hlen1 heq
  have hpw : p * w + w ≤ B1.length := by rw [hlen1]; exact slot_bound w hpnb
  apply readSlice_congr _ _ _ _ hpw (by rw [hL, ← hlen1]; exact hpw)
  intro i hi1 hi2
  apply hF
  intro r hr
  have hrp : r ≠ p := fun hrp => hnotmem (hrp ▸ hr)
  rcases Nat.lt_or_ge r p with hlt | hge
  · right
    have := slot_disjoint w hlt
    omega
  · left
    have hplt : p < r := by omega
    have := slot_disjoint w hplt
    omega

theorem update_key_go_inc_uniform (nb w v : Nat) (ps : List Nat) (B : List Bool)
    (hnodup : ps.Nodup) (hbound : ∀ p ∈ ps, p < nb) (hlen : B.length = nb * w)
    (hv : ∀ p ∈ ps, ba2int (readSlice B (p * w) w) = v) (hlt : v + 1 < 2 ^ w) :
    ∃ B', update_key_go ps B w "inc" = (B', none) ∧ B'.length = nb * w ∧
      ∀ p ∈ ps, ba2int (readSlice B' (p * w) w) = v + 1 := by
  induction ps generalizing B with
  | nil => exact ⟨B, rfl, hlen, by simp⟩
  | cons p rest ih =>
    have hpmem : p ∈ p :: rest := List.mem_cons_self p rest
    have hpnb : p < nb := hbound p hpmem
    have hpw : p * w + w ≤ B.length := by rw [hlen]; exact slot_bound w hpnb
    have hcnt : update_counter (readSlice B (p * w) w) w "inc" =
        .ok (int2ba w (v + 1)) := by
      rw [update_counter_inc, hv p hpmem, if_pos hlt]
    have hw : (int2ba w (v + 1)).length = w := length_int2ba w (v + 1)
    have hpw' : p * w + (int2ba w (v + 1)).length ≤ B.length := by rw [hw]; exact hpw
    have hlen1 : (setSlice B (p * w) (int2ba w (v + 1))).length = nb * w := by
      rw [length_setSlice _ _ _ hpw', hlen]
    have hnm : p ∉ rest := (List.nodup_cons.mp hnodup).1
    have hrb : ∀ q ∈ rest, q < nb := fun q hq => hbound q (List.mem_cons_of_mem _ hq)
    have hv1 : ∀ q ∈ rest,
        ba2int (readSlice (setSlice B (p * w) (int2ba w (v + 1))) (q * w) w) = v := by
      intro q hq
      rw [counters_after_setSlice nb w B _ p rest hw hpnb hrb hnm hlen q hq]
      exact hv q (List.mem_cons_of_mem _ hq)
    obtain ⟨B', hB', hL, hC⟩ := ih _ (List.nodup_cons.mp hnodup).2 hrb hlen1 hv1
    refine ⟨B', ?_, hL, ?_⟩
    · simp only [update_key_go, hcnt]
      exact hB'
    · intro q hq
      rcases List.mem_cons.mp hq with hqp | hq'
      · subst hqp
        rw [frame_keeps_slot nb w _ B' q rest "inc" hrb hpnb hnm hlen1 hB']
        have hself := readSlice_setSlice_self B (int2ba w (v + 1)) (q * w) hpw'
        rw [hw] at hself
        rw [hself, ba2int_int2ba _ _ hlt]
      · exact hC q hq'

theorem update_key_go_dec_uniform (nb w v : Nat) (ps : List Nat) (B : List Bool)
    (hnodup : ps.Nodup) (hbound : ∀ p ∈ ps, p < nb) (hlen : B.length = nb * w)
    (hv : ∀ p ∈ ps, ba2int (readSlice B (p * w) w) = v + 1) (hlt : v + 1 < 2 ^ w) :
    ∃ B', update_key_go ps B w "dec" = (B', none) ∧ B'.length = nb * w ∧
      ∀ p ∈ ps, ba2int (readSlice B' (p * w) w) = v := by
  induction ps generalizing B with
  | nil => exact ⟨B, rfl, hlen, by simp⟩
  | cons p rest ih =>
    have hpmem : p ∈ p :: rest := List.mem_cons_self p rest
    have hpnb : p < nb := hbound p hpmem
    have hpw : p * w + w ≤ B.length := by rw [hlen]; exact slot_bound w hpnb
    have hvlt : v < 2 ^ w := by omega
    have hcnt : update_counter (readSlice B (p * w) w) w "dec" =
        .ok (int2ba w v) := by
      have hne0 : ¬(v + 1 = 0) := by omega
      rw [update_counter_dec _ _ (by rw [hv p hpmem]; omega), hv p hpmem,
        if_neg hne0]
      congr 1
    have hw : (int2ba w v).length = w := length_int2ba w v
    have hpw' : p * w + (int2ba w v).length ≤ B.length := by rw [hw]; exact hpw
    have hlen1 : (setSlice B (p * w) (int2ba w v)).length = nb * w := by
      rw [length_setSlice _ _ _ hpw', hlen]
    have hnm : p ∉ rest := (List.nodup_cons.mp hnodup).1
    have hrb : ∀ q ∈ rest, q < nb := fun q hq => hbound q (List.mem_cons_of_mem _ hq)
    have hv1 : ∀ q ∈ rest,
        ba2int (readSlice (setSlice B (p * w) (int2ba w v)) (q * w) w) = v + 1 := by
      intro q hq
      rw [counters_after_setSlice nb w B _ p rest hw hpnb hrb hnm hlen q hq]
      exact hv q (List.mem_cons_of_mem _ hq)
    obtain ⟨B', hB', hL, hC⟩ := ih _ (List.nodup_cons.mp hnodup).2 hrb hlen1 hv1
    refine ⟨B', ?_, hL, ?_⟩
    · simp only [update_key_go, hcnt]
      exact hB'
    · intro q hq
      rcases List.mem_cons.mp hq with hqp | hq'
      · subst hqp
        rw [frame_keeps_slot nb w _ B' q rest "dec" hrb hpnb hnm hlen1 hB']
        have hself := readSlice_setSlice_self B (int2ba w v) (q * w) hpw'
        rw [hw] at hself
        rw [hself, ba2int_int2ba _ _ hvlt]
      · exact hC q hq'

theorem update_key_go_inc_overflow (w v p : Nat) (rest : List Nat) (B : List Bool)
    (hv : ba2int (readSlice B (p * w) w) = v) (hge : 2 ^ w ≤ v + 1) :
    update_key_go (p :: rest) B w "inc" =
      (B, some "Error: counter larger than max size") := by
  simp only [update_key_go, update_counter_inc, hv,
    if_neg (by omega : ¬(v + 1 < 2 ^ w))]

theorem update_key_go_dec_underflow (w p : Nat) (rest : List Nat) (B : List Bool)
    (hv : ba2int (readSlice B (p * w) w) = 0) :
    update_key_go (p :: rest) B w "dec" =
      (B, some "Error: bit counter < 0") := by
  have hlt : ba2int (readSlice B (p * w) w) < 2 ^ w := by
    calc ba2int (readSlice B (p * w) w)
        < 2 ^ (readSlice B (p * w) w).length := ba2int_lt _
    _ ≤ 2 ^ w := by
        apply Nat.pow_le_pow_right (by omega)
        simp [readSlice]
  simp only [update_key_go, update_counter_dec _ _ hlt, hv, eq_self_iff_true, if_true]

/-! ### Helper lemmas: basic Bloom filter -/

theorem foldl_set_length (l : List Nat) (B : List Bool) (f : Nat → Nat) :
    (l.foldl (fun acc i => acc.set (f i) true) B).length = B.length := by
  induction l generalizing B with
  | nil => rfl
  | cons x xs ih => simp [ih]

theorem foldl_set_preserve (l : List Nat) (B : List Bool) (f : Nat → Nat) (j : Nat)
    (hj : B.getD j false = true) :
    (l.foldl (fun acc i => acc.set (f i) true) B).getD j false = true := by
  induction l generalizing B with
  | nil => exact hj
  | cons x xs ih =>
    simp only [List.foldl_cons]
    apply ih
    have hjlen : j < B.length := by
      by_contra hge
      rw [List.getD_eq_default _ _ (by omega)] at hj
      exact Bool.false_ne_true hj
    rw [List.getD_eq_getElem?_getD, List.getElem?_set]
    split
    · rw [if_pos (by omega)]
      rfl
    · rw [← List.getD_eq_getElem?_getD]
      exact hj

theorem foldl_set_mem (l : List Nat) (B : List Bool) (f : Nat → Nat)
    (hb : ∀ i ∈ l, f i < B.length) :
    ∀ i ∈ l, (l.foldl (fun acc i => acc.set (f i) true) B).getD (f i) false = true := by
  induction l generalizing B with
  | nil => intro i hi; exact absurd hi (List.not_mem_nil i)
  | cons x xs ih =>
    intro i hi
    simp only [List.foldl_cons]
    rcases List.mem_cons.mp hi with hix | hixs
    · subst hix
      apply foldl_set_preserve
      rw [List.getD_eq_getElem?_getD, List.getElem?_set_self (hb i (List.mem_cons_self i xs))]
      rfl
    · apply ih (B.set (f x) true)
      · intro q hq
        rw [List.length_set]
        exact hb q (List.mem_cons_of_mem _ hq)
      · exact hixs

theorem add_key_length (h : String → Nat → Nat → Nat) (s : String) (B : List Bool)
    (nd nhf : Nat) : (add_key h s B nd nhf).length = B.length :=
  foldl_set_length _ _ _

theorem add_key_preserve (h : String → Nat → Nat → Nat) (s : String) (B : List Bool)
    (nd nhf j : Nat) (hj : B.getD j false = true) :
    (add_key h s B nd nhf).getD j false = true :=
  foldl_set_preserve _ _ _ _ hj

theorem add_key_sets (h : String → Nat → Nat → Nat) (s : String) (B : List Bool)
    (nd nhf : Nat) (hb : ∀ nr, h s nd nr < B.length) :
    ∀ i ∈ List.range nhf, (add_key h s B nd nhf).getD (h s nd (i + 1)) false = true :=
  foldl_set_mem _ _ _ (fun i _ => hb (i + 1))

theorem fill_B_length (h : String → Nat → Nat → Nat) (S : List String) (B : List Bool)
    (nd nhf : Nat) : (fill_B h S B nd nhf).length = B.length := by
  induction S generalizing B with
  | nil => rfl
  | cons x xs ih =>
    simp only [fill_B, List.foldl_cons]
    rw [show (xs.foldl (fun acc s => add_key h s acc nd nhf) (add_key h x B nd nhf)) =
      fill_B h xs (add_key h x B nd nhf) nd nhf from rfl, ih, add_key_length]

theorem fill_B_preserve (h : String → Nat → Nat → Nat) (S : List String) (B : List Bool)
    (nd nhf j : Nat) (hj : B.getD j false = true) :
    (fill_B h S B nd nhf).getD j false = true := by
  induction S generalizing B with
  | nil => exact hj
  | cons x xs ih =>
    simp only [fill_B, List.foldl_cons] at ih ⊢
    exact ih _ (add_key_preserve _ _ _ _ _ _ hj)

theorem fill_B_sets (h : String → Nat → Nat → Nat) (S : List String) (B : List Bool)
    (nd nhf : Nat) (s : String) (hb : ∀ t nr, h t nd nr < B.length) (hs : s ∈ S) :
    ∀ i ∈ List.range nhf, (fill_B h S B nd nhf).getD (h s nd (i + 1)) false = true := by
  induction S generalizing B with
  | nil => exact absurd hs (List.not_mem_nil s)
  | cons x xs ih =>
    intro i hi
    simp only [fill_B, List.foldl_cons]
    rcases List.mem_cons.mp hs with hsx | hsxs
    · subst hsx
      have := add_key_sets h s B nd nhf (fun nr => hb s nr) i hi
      exact fill_B_preserve h xs _ nd nhf _ this
    · exact ih (add_key h x B nd nhf)
        (fun t nr => by rw [add_key_length]; exact hb t nr) hsxs i hi

theorem foldl_count_ones (l : List Nat) (B : List Bool) (f : Nat → Nat)
    (hall : ∀ i ∈ l, B.getD (f i) false = true) (c : Nat) :
    l.foldl (fun cnt i => cnt + (if B.getD (f i) false then 1 else 0)) c = c + l.length := by
  induction l generalizing c with
  | nil => simp
  | cons x xs ih =>
    simp only [List.foldl_cons, List.length_cons]
    rw [hall x (List.mem_cons_self x xs)]
    simp only [eq_self_iff_true, if_true]
    rw [ih (fun i hi => hall i (List.mem_cons_of_mem _ hi))]
    omega

/-! ### Helper lemmas: reservoir sampler -/

theorem handle_new_item_length {α : Type} (B t : Nat) (item : α)
    (res : List (Option α)) (draw : Nat) :
    (handle_new_item B t item res draw).length = res.length := by
  unfold handle_new_item
  split
  · rw [List.length_set]
  · split
    · rw [List.length_set]
    · rfl

theorem handle_new_item_pointwise {α : Type} (B t : Nat) (item : α)
    (res : List (Option α)) (draw : Nat)
    (hlen : res.length = B)
    (hpt : ∀ i, i < B → ((res.getD i none).isSome = true ↔ i < min t B)) :
    ∀ i, i < B →
      (((handle_new_item B t item res draw).getD i none).isSome = true ↔ i < min (t + 1) B) := by
  intro i hi
  unfold handle_new_item
  split
  · rename_i htB
    by_cases hit : i = t
    · subst hit
      rw [List.getD_eq_getElem?_getD, List.getElem?_set_self (by omega)]
      simp only [Option.getD_some, Option.isSome_some]
      exact iff_of_true (by trivial) (by rw [lt_min_iff]; omega)
    · rw [List.getD_eq_getElem?_getD, List.getElem?_set_ne (fun hc => hit hc.symm),
        ← List.getD_eq_getElem?_getD]
      rw [hpt i hi]
      simp only [lt_min_iff]
      omega
  · rename_i htB
    have hmin : min t B = B := Nat.min_eq_right (by omega)
    have hmin1 : min (t + 1) B = B := Nat.min_eq_right (by omega)
    split
    · by_cases hid : i = draw
      · subst hid
        rw [List.getD_eq_getElem?_getD, List.getElem?_set_self (by omega)]
        simp only [Option.getD_some, Option.isSome_some]
        exact iff_of_true (by trivial) (by rw [hmin1]; omega)
      · rw [List.getD_eq_getElem?_getD, List.getElem?_set_ne (fun hc => hid hc.symm),
          ← List.getD_eq_getElem?_getD]
        rw [hpt i hi, hmin, hmin1]
    · rw [hpt i hi, hmin, hmin1]

theorem run_reservoir_aux_spec {α : Type} (B : Nat) (draws : Nat → Nat)
    (stream : List α) (t : Nat) (res : List (Option α))
    (hlen : res.length = B)
    (hpt : ∀ i, i < B → ((res.getD i none).isSome = true ↔ i < min t B)) :
    (run_reservoir_aux B draws stream t res).length = B ∧
      ∀ i, i < B → (((run_reservoir_aux B draws stream t res).getD i none).isSome = true ↔
        i < min (t + stream.length) B) := by
  induction stream generalizing t res with
  | nil => exact ⟨hlen, by simpa using hpt⟩
  | cons it rest ih =>
    simp only [run_reservoir_aux, List.length_cons]
    have hlen1 : (handle_new_item B t it res (draws t)).length = B := by
      rw [handle_new_item_length, hlen]
    have hpt1 := handle_new_item_pointwise B t it res (draws t) hlen hpt
    obtain ⟨hL, hP⟩ := ih (t + 1) _ hlen1 hpt1
    refine ⟨hL, fun i hi => ?_⟩
    rw [hP i hi]
    have harith : t + 1 + rest.length = t + (rest.length + 1) := by omega
    rw [harith]

theorem filter_isSome_of_pointwise {α : Type} (l : List (Option α)) (k : Nat)
    (hk : k ≤ l.length)
    (hpt : ∀ i, i < l.length → ((l.getD i none).isSome = true ↔ i < k)) :
    (l.filter (fun o => o.isSome)).length = k := by
  induction l generalizing k with
  | nil =>
    have hk0 : k = 0 := by simpa using hk
    subst hk0
    rfl
  | cons a l ih =>
    have h0 := hpt 0 (by simp)
    simp only [List.getD_cons_zero] at h0
    rcases k with _ | k'
    · have ha : a.isSome = false := by
        rcases ha' : a.isSome with _ | _
        · rfl
        · exact absurd (h0.mp ha') (by omega)
      rw [List.filter_cons_of_neg (by simp [ha])]
      apply ih 0 (by omega)
      intro i hi
      have := hpt (i + 1) (by simpa using Nat.succ_lt_succ hi)
      simp only [List.getD_cons_succ] at this
      rw [this]
      omega
    · have ha : a.isSome = true := h0.mpr (by omega)
      rw [List.filter_cons_of_pos (by simp [ha]), List.length_cons]
      rw [ih k' (by simp only [List.length_cons] at hk; omega)]
      intro i hi
      have := hpt (i + 1) (by simpa using Nat.succ_lt_succ hi)
      simp only [List.getD_cons_succ] at this
      rw [this]
      omega

/-! ### Helper lemmas: tracker ingestion -/

theorem ingest_aux_some (rv : Nat → Option Nat) (i : Nat) (Rs Rs' : List Nat)
    (h : ingest_aux rv i Rs = some Rs') :
    Rs'.length = Rs.length ∧
      (∀ j, j < Rs.length → (rv (i + j)).isSome = true) ∧
      (∀ j, j < Rs.length → Rs'.getD j 0 = max (Rs.getD j 0) ((rv (i + j)).getD 0)) := by
  induction Rs generalizing i Rs' with
  | nil =>
    simp only [ingest_aux, Option.some.injEq] at h
    subst h
    exact ⟨rfl, fun j hj => absurd hj (by simp), fun j hj => absurd hj (by simp)⟩
  | cons R rest ih =>
    simp only [ingest_aux] at h
    rcases hrv : rv i with _ | r
    · rw [hrv] at h
      exact absurd h (by simp)
    · rw [hrv] at h
      rcases htl : ingest_aux rv (i + 1) rest with _ | rest'
      · rw [htl] at h
        exact absurd h (by simp)
      · rw [htl] at h
        simp only [Option.map_some', Option.some.injEq] at h
        obtain ⟨hL, hS, hP⟩ := ih (i + 1) rest' htl
        subst h
        refine ⟨by simp [hL], fun j hj => ?_, fun j hj => ?_⟩
        · rcases j with _ | j'
          · rw [Nat.add_zero, hrv]
            rfl
          · have := hS j' (by simpa using Nat.lt_of_succ_lt_succ (by simpa using hj))
            rw [show i + (j' + 1) = i + 1 + j' by omega]
            exact this
        · rcases j with _ | j'
          · simp [hrv]
          · simp only [List.getD_cons_succ]
            rw [hP j' (by simpa using Nat.lt_of_succ_lt_succ (by simpa using hj))]
            rw [show i + (j' + 1) = i + 1 + j' by omega]

theorem ingest_aux_id (rv : Nat → Option Nat) (i : Nat) (Rs : List Nat)
    (h : ∀ j, j < Rs.length → ∃ r, rv (i + j) = some r ∧ r ≤ Rs.getD j 0) :
    ingest_aux rv i Rs = some Rs := by
  induction Rs generalizing i with
  | nil => rfl
  | cons R rest ih =>
    obtain ⟨r, hr, hle⟩ := h 0 (by simp)
    rw [Nat.add_zero] at hr
    simp only [List.getD_cons_zero] at hle
    simp only [ingest_aux, hr]
    rw [ih (i + 1) (fun j hj => ?_)]
    · simp only [Option.map_some', Option.some.injEq]
      rw [Nat.max_eq_left hle]
    · obtain ⟨r', hr', hle'⟩ := h (j + 1) (by simpa using Nat.succ_lt_succ hj)
      exact ⟨r', by rw [show i + 1 + j = i + (j + 1) by omega]; exact hr',
        by simpa using hle'⟩

theorem ingest_key_char (h : String → Nat → Nat → Nat) (nd : Nat) (key : String)
    (Rs Rs' : List Nat) (heq : ingest_key h nd key Rs = some Rs') :
    Rs'.length = Rs.length ∧
      (∀ j, j < Rs.length → (get_r (h key nd (j + 1))).isSome = true) ∧
      (∀ j, j < Rs.length → Rs'.getD j 0 = max (Rs.getD j 0) (rval h nd key j)) := by
  obtain ⟨hL, hS, hP⟩ := ingest_aux_some _ 0 Rs Rs' heq
  exact ⟨hL, fun j hj => by simpa using hS j hj,
    fun j hj => by simpa [rval] using hP j hj⟩

theorem ingest_stream_char (h : String → Nat → Nat → Nat) (nd : Nat)
    (keys : List String) (Rs0 Rs : List Nat)
    (heq : ingest_stream h nd keys Rs0 = some Rs) :
    Rs.length = Rs0.length ∧
      (∀ key ∈ keys, ∀ j, j < Rs0.length → (get_r (h key nd (j + 1))).isSome = true) ∧
      (∀ j, j < Rs0.length →
        Rs.getD j 0 = (keys.map (fun key => rval h nd key j)).foldl max (Rs0.getD j 0)) := by
  induction keys generalizing Rs0 with
  | nil =>
    simp only [ingest_stream, List.foldlM_nil, Option.pure_def, Option.some.injEq] at heq
    subst heq
    exact ⟨rfl, by simp, by simp⟩
  | cons k ks ih =>
    simp only [ingest_stream, List.foldlM_cons] at heq
    rcases h1 : ingest_key h nd k Rs0 with _ | Rs1
    · rw [h1] at heq
      exact absurd heq (by simp)
    · rw [h1] at heq
      simp only [Option.bind_eq_bind, Option.some_bind] at heq
      obtain ⟨hL1, hS1, hP1⟩ := ingest_key_char h nd k Rs0 Rs1 h1
      obtain ⟨hL, hS, hP⟩ := ih Rs1 heq
      refine ⟨by rw [hL, hL1], fun key hkey j hj => ?_, fun j hj => ?_⟩
      · rcases List.mem_cons.mp hkey with hk | hk
        · subst hk
          exact hS1 j hj
        · exact hS key hk j (by rw [hL1]; exact hj)
      · rw [List.map_cons, List.foldl_cons]
        rw [hP j (by rw [hL1]; exact hj), hP1 j hj]

theorem le_foldl_max (l : List Nat) (a : Nat) :
    a ≤ l.foldl max a ∧ ∀ x ∈ l, x ≤ l.foldl max a := by
  induction l generalizing a with
  | nil => exact ⟨le_refl a, by simp⟩
  | cons y ys ih =>
    simp only [List.foldl_cons]
    obtain ⟨h1, h2⟩ := ih (max a y)
    refine ⟨le_trans (Nat.le_max_left a y) h1, fun x hx => ?_⟩
    rcases List.mem_cons.mp hx with hxy | hxys
    · subst hxy
      exact le_trans (Nat.le_max_right a x) h1
    · exact h2 x hxys

theorem foldl_max_mem (l : List Nat) (a : Nat) :
    l.foldl max a = a ∨ l.foldl max a ∈ l := by
  induction l generalizing a with
  | nil => exact Or.inl rfl
  | cons y ys ih =>
    simp only [List.foldl_cons]
    rcases ih (max a y) with h | h
    · rcases max_choice a y with hm | hm
      · exact Or.inl (by rw [h, hm])
      · exact Or.inr (by rw [h, hm]; exact List.mem_cons_self y ys)
    · exact Or.inr (List.mem_cons_of_mem _ h)

theorem foldl_max_zero_mem (l : List Nat) (hne : l ≠ []) : l.foldl max 0 ∈ l := by
  rcases foldl_max_mem l 0 with h | h
  · rcases l with _ | ⟨y, ys⟩
    · exact absurd rfl hne
    · have hy : y ≤ (y :: ys).foldl max 0 := (le_foldl_max _ _).2 y (List.mem_cons_self y ys)
      rw [h] at hy
      have : y = 0 := by omega
      rw [h, ← this]
      exact List.mem_cons_self y ys
  · exact h

/-! ### Helper lemmas: estimate aggregation -/

theorem np_split_length (l : List ℚ) (n : Nat) : (np_split l n).length = n := by
  simp [np_split]

theorem np_split_eq (l : List ℚ) (g m : Nat) (hg : 0 < g) (hlen : l.length = g * m) :
    np_split l g = (List.range g).map (fun i => (l.drop (i * m)).take m) := by
  unfold np_split
  rw [hlen, Nat.mul_div_cancel_left m hg]

theorem np_split_chunk_length (l : List ℚ) (g m : Nat) (hg : 0 < g)
    (hlen : l.length = g * m) :
    ∀ chunk ∈ np_split l g, chunk.length = m := by
  rw [np_split_eq l g m hg hlen]
  intro chunk hchunk
  obtain ⟨i, hi, hci⟩ := List.mem_map.mp hchunk
  rw [← hci]
  have hig : i < g := List.mem_range.mp hi
  have hbound : i * m + m ≤ g * m := slot_bound m hig
  simp only [List.length_take, List.length_drop, hlen]
  omega

theorem np_split_join (l : List ℚ) (g m : Nat) (hg : 0 < g)
    (hlen : l.length = g * m) :
    (np_split l g).flatten = l := by
  rw [np_split_eq l g m hg hlen]
  have hgen : ∀ n, n ≤ g →
      ((List.range n).map (fun i => (l.drop (i * m)).take m)).flatten = l.take (n * m) := by
    intro n
    induction n with
    | zero => simp
    | succ k ih =>
      intro hk
      rw [List.range_succ, List.map_append, List.flatten_append, ih (by omega)]
      simp only [List.map_cons, List.map_nil, List.flatten_cons, List.flatten_nil,
        List.append_nil]
      rw [← List.take_add]
      congr 1
      ring
  rw [hgen g (le_refl g), ← hlen, List.take_length]

/-! ### Helper lemmas: iterated inserts -/

theorem repeat_op_add (f : List Bool → List Bool × Option String) (m n : Nat)
    (B : List Bool) :
    repeat_op f (m + n) B =
      match repeat_op f m B with
      | (B', none) => repeat_op f n B'
      | (B', some e) => (B', some e) := by
  induction m generalizing B with
  | zero => simp [repeat_op]
  | succ k ih =>
    rw [show k + 1 + n = (k + n) + 1 by omega]
    simp only [repeat_op]
    rcases hf : f B with ⟨B1, e1⟩
    rcases e1 with _ | e
    · exact ih B1
    · rfl

theorem repeat_go_inc (nb w : Nat) (ps : List Nat) (hnodup : ps.Nodup)
    (hbound : ∀ p ∈ ps, p < nb) :
    ∀ (n v : Nat) (B : List Bool), B.length = nb * w →
      (∀ p ∈ ps, ba2int (readSlice B (p * w) w) = v) → v + n < 2 ^ w →
      ∃ B', repeat_op (fun B => update_key_go ps B w "inc") n B = (B', none) ∧
        B'.length = nb * w ∧ ∀ p ∈ ps, ba2int (readSlice B' (p * w) w) = v + n := by
  intro n
  induction n with
  | zero =>
    intro v B hlen hv _
    exact ⟨B, rfl, hlen, by simpa using hv⟩
  | succ k ih =>
    intro v B hlen hv hok
    obtain ⟨B1, hB1, hL1, hC1⟩ :=
      update_key_go_inc_uniform nb w v ps B hnodup hbound hlen hv (by omega)
    obtain ⟨B', hB', hL', hC'⟩ := ih (v + 1) B1 hL1 hC1 (by omega)
    refine ⟨B', ?_, hL', fun p hp => ?_⟩
    · simp only [repeat_op, hB1]
      exact hB'
    · rw [hC' p hp]
      omega

theorem init_counting_counters (nb w p : Nat) :
    ba2int (readSlice (init_counting_B nb w) (p * w) w) = 0 := by
  rw [init_counting_B, readSlice_replicate_false]
  exact ba2int_replicate_false _

theorem insert_key_eq (h : String → Nat → Nat → Nat) (s : String) (B : List Bool)
    (nd nhf w : Nat) :
    insert_key h s B nd nhf w = update_key_go (hashPositions h s nd nhf) B w "inc" := by
  unfold insert_key update_key
  rw [if_pos rfl]

theorem delete_key_eq (h : String → Nat → Nat → Nat) (s : String) (B : List Bool)
    (nd nhf w : Nat) :
    delete_key h s B nd nhf w = update_key_go (hashPositions h s nd nhf) B w "dec" := by
  unfold delete_key update_key
  rw [if_neg (by decide : ¬("delete" : String) = "insert")]

theorem getD_replicate_zero (k j : Nat) : (List.replicate k (0 : Nat)).getD j 0 = 0 := by
  rw [List.getD_eq_getElem?_getD, List.getElem?_replicate]
  split <;> rfl

/-! ## Claims -/

/-- C1: the counting filter's per-key update is claimed to be all-or-nothing:
when an increment would overflow, the operation should raise and leave every
counter unchanged.  Evaluating the code at a failing input refutes the
rollback: with two hash positions 0 and 1, `bits_per_counter = 3`, counter 0
at value 0 and counter 1 saturated at 7, `insert_key` raises the overflow
exception but returns a state whose counter 0 was already incremented to 1 —
the bit array differs from the pre-call state. -/
theorem counting_filter_no_rollback :
    insert_key (fun _ _ nr => nr - 1) "k"
        [false, false, false, true, true, true] 1 2 3 =
      ([false, false, true, true, true, true],
        some "Error: counter larger than max size") ∧
    ([false, false, true, true, true, true] : List Bool) ≠
      [false, false, false, true, true, true] := by
  constructor
  · rfl
  · decide

/-- C2: the spec's `observe` step draws `p` uniformly from the `t` values
`[0, t-1]` (with `t` the 1-indexed count).  The code's `handle_new_item`
instead calls `np.random.randint(0, t)` with the 0-indexed counter, i.e. draws
from only `t-1` values.  Concretely, with `B = 1` and the second item
(code parameter `t = 1`, spec count `t = 2`): the code's draw support is
`{0}` and the item always overwrites slot 0, while under the spec the draw
`p = 1` lies in the support `{0, 1}` and discards the item, leaving the
reservoir unchanged — an outcome the code can never produce. -/
theorem reservoir_observe_step_mismatch :
    randint_support 1 = [0] ∧
    handle_new_item 1 1 (2 : Nat) [some 1] 0 = [some 2] ∧
    randint_support 2 = [0, 1] ∧
    observe_step_spec 1 2 (2 : Nat) [some 1] 1 = [some 1] ∧
    ([some 2] : List (Option Nat)) ≠ [some 1] := by
  refine ⟨rfl, rfl, rfl, rfl, by decide⟩

/-- C3: the basic Bloom filter has no false negatives: for every hash family
whose values lie in `[0, num_buckets)`, every `num_hash_functions ≥ 1`, every
set `S` of keys filled into the initially-zero bit array in any order, and
every `s ∈ S`, `check_key` returns `True`. -/
theorem bloom_no_false_negatives
    (h : String → Nat → Nat → Nat) (S : List String) (s : String)
    (num_buckets num_digits num_hash_functions : Nat)
    (hrange : ∀ t nr, h t num_digits nr < num_buckets)
    (hnhf : 1 ≤ num_hash_functions) (hmem : s ∈ S) :
    check_key h s (fill_B h S (init_B num_buckets) num_digits num_hash_functions)
      num_digits num_hash_functions = true := by
  unfold check_key
  have hlen : (init_B num_buckets).length = num_buckets := List.length_replicate _ _
  have hall : ∀ i ∈ List.range num_hash_functions,
      (fill_B h S (init_B num_buckets) num_digits num_hash_functions).getD
        (h s num_digits (i + 1)) false = true :=
    fill_B_sets h S _ num_digits num_hash_functions s
      (fun t nr => by rw [hlen]; exact hrange t nr) hmem
  rw [foldl_count_ones (List.range num_hash_functions) _
    (fun i => h s num_digits (i + 1)) hall 0]
  simp

/-- Witness for C3 at a concrete configuration: `num_buckets = 10`,
three hash functions, two inserted keys. -/
theorem bloom_no_false_negatives_witness :
    check_key (fun _ _ _ => 0) "a"
      (fill_B (fun _ _ _ => 0) ["a", "b"] (init_B 10) 1 3) 1 3 = true :=
  bloom_no_false_negatives (fun _ _ _ => 0) ["a", "b"] "a" 10 1 3
    (fun _ _ => by show (0 : Nat) < 10; omega) (by omega) (by decide)

/-- C4: DistinctCounter ingestion is claimed total, with the hash value 0
capped.  The code's `get_r(0) = int(np.log2(0))` raises `OverflowError`
(modelled as `none`), and the tracker-update loop propagates the failure, so a
key whose hash value is 0 aborts ingestion instead of being capped. -/
theorem distinct_counter_zero_hash_raises :
    get_r 0 = none ∧
    ingest_key (fun _ _ _ => 0) 8 "key" [0, 0] = none := by
  constructor
  · rfl
  · rfl

/-- C5: with `bits_per_counter = 3` (maximum count 7), a key whose hash
positions are pairwise distinct and in range: seven inserts of the key from
the all-zero array succeed, the eighth raises the CounterOverflow exception;
and after one insert, the first delete succeeds while the second raises the
CounterUnderflow exception. -/
theorem counting_filter_overflow_underflow
    (h : String → Nat → Nat → Nat) (s : String)
    (num_buckets num_digits num_hash_functions : Nat)
    (hnodup : (hashPositions h s num_digits num_hash_functions).Nodup)
    (hbound : ∀ p ∈ hashPositions h s num_digits num_hash_functions, p < num_buckets)
    (hne : hashPositions h s num_digits num_hash_functions ≠ []) :
    ((repeat_op (fun B => insert_key h s B num_digits num_hash_functions 3) 7
        (init_counting_B num_buckets 3)).2 = none) ∧
    ((repeat_op (fun B => insert_key h s B num_digits num_hash_functions 3) 8
        (init_counting_B num_buckets 3)).2 =
      some "Error: counter larger than max size") ∧
    (∃ B1 B2,
      insert_key h s (init_counting_B num_buckets 3) num_digits num_hash_functions 3 =
        (B1, none) ∧
      delete_key h s B1 num_digits num_hash_functions 3 = (B2, none) ∧
      (delete_key h s B2 num_digits num_hash_functions 3).2 =
        some "Error: bit counter < 0") := by
  obtain ⟨p0, rest, hps⟩ := List.exists_cons_of_ne_nil hne
  have hfun : (fun B => insert_key h s B num_digits num_hash_functions 3) =
      (fun B => update_key_go (hashPositions h s num_digits num_hash_functions) B 3 "inc") :=
    funext (fun B => insert_key_eq h s B num_digits num_hash_functions 3)
  have hlen0 : (init_counting_B num_buckets 3).length = num_buckets * 3 :=
    List.length_replicate _ _
  have hv0 : ∀ p ∈ hashPositions h s num_digits num_hash_functions,
      ba2int (readSlice (init_counting_B num_buckets 3) (p * 3) 3) = 0 :=
    fun p _ => init_counting_counters num_buckets 3 p
  obtain ⟨B7, hB7, hL7, hC7⟩ := repeat_go_inc num_buckets 3 _ hnodup hbound 7 0
    (init_counting_B num_buckets 3) hlen0 hv0 (by norm_num)
  refine ⟨?_, ?_, ?_⟩
  · rw [hfun, hB7]
  · rw [hfun, show (8 : Nat) = 7 + 1 from rfl, repeat_op_add, hB7]
    have hover : update_key_go (hashPositions h s num_digits num_hash_functions) B7 3 "inc" =
        (B7, some "Error: counter larger than max size") := by
      rw [hps]
      exact update_key_go_inc_overflow 3 (0 + 7) p0 rest B7
        (hC7 p0 (by rw [hps]; exact List.mem_cons_self p0 rest))
        (by norm_num)
    simp only [repeat_op, hover]
  · obtain ⟨B1, hB1, hL1, hC1⟩ :=
      update_key_go_inc_uniform num_buckets 3 0 _ (init_counting_B num_buckets 3)
        hnodup hbound hlen0 hv0 (by norm_num)
    obtain ⟨B2, hB2, hL2, hC2⟩ :=
      update_key_go_dec_uniform num_buckets 3 0 _ B1 hnodup hbound hL1
        hC1 (by norm_num)
    refine ⟨B1, B2, ?_, ?_, ?_⟩
    · rw [insert_key_eq, hB1]
    · rw [delete_key_eq, hB2]
    · rw [delete_key_eq, hps]
      rw [update_key_go_dec_underflow 3 p0 rest B2
        (hC2 p0 (by rw [hps]; exact List.mem_cons_self p0 rest))]

/-- Witness for C5 at a concrete configuration: hash positions `[0, 1, 2]`,
`num_buckets = 10`, three hash functions. -/
theorem counting_filter_overflow_underflow_witness :
    ((repeat_op (fun B => insert_key (fun _ _ nr => nr - 1) "Hello World" B 1 3 3) 7
        (init_counting_B 10 3)).2 = none) ∧
    ((repeat_op (fun B => insert_key (fun _ _ nr => nr - 1) "Hello World" B 1 3 3) 8
        (init_counting_B 10 3)).2 =
      some "Error: counter larger than max size") ∧
    (∃ B1 B2,
      insert_key (fun _ _ nr => nr - 1) "Hello World" (init_counting_B 10 3) 1 3 3 =
        (B1, none) ∧
      delete_key (fun _ _ nr => nr - 1) "Hello World" B1 1 3 3 = (B2, none) ∧
      (delete_key (fun _ _ nr => nr - 1) "Hello World" B2 1 3 3).2 =
        some "Error: bit counter < 0") :=
  counting_filter_overflow_underflow (fun _ _ nr => nr - 1) "Hello World" 10 1 3
    (by decide) (by decide) (by decide)

/-- C6: after observing `N` items with reservoir capacity `B`, the reservoir
list still has length `B` and the sample — the filled (non-placeholder) slots —
has length exactly `min(N, B)`.  `draws t` models `np.random.randint(0, t)`
and is constrained to its support (valid for every `B ≥ 1`; for `B = 0`
`randint(0, 0)` cannot return at all). -/
theorem reservoir_exact_size {α : Type} (B : Nat) (draws : Nat → Nat)
    (stream : List α)
    (hdraws : ∀ t, B ≤ t → draws t < t) :
    (run_reservoir B draws stream).length = B ∧
      ((run_reservoir B draws stream).filter (fun o => o.isSome)).length =
        min stream.length B := by
  have hpt0 : ∀ i, i < B →
      (((List.replicate B (none : Option α)).getD i none).isSome = true ↔ i < min 0 B) := by
    intro i hi
    rw [List.getD_eq_getElem?_getD, List.getElem?_replicate]
    constructor
    · intro hcon
      rw [if_pos hi] at hcon
      exact absurd hcon (by simp)
    · omega
  obtain ⟨hL, hP⟩ := run_reservoir_aux_spec B draws stream 0 _
    (List.length_replicate _ _) hpt0
  unfold run_reservoir
  refine ⟨hL, ?_⟩
  apply filter_isSome_of_pointwise _ (min stream.length B) (by rw [hL]; omega)
  intro i hi
  rw [hL] at hi
  simpa using hP i hi

/-- Witness for C6 at `B = 3` over a 5-item stream. -/
theorem reservoir_exact_size_witness :
    (run_reservoir 3 (fun t => t - 1) ([10, 20, 30, 40, 50] : List Nat)).length = 3 ∧
      ((run_reservoir 3 (fun t => t - 1) ([10, 20, 30, 40, 50] : List Nat)).filter
        (fun o => o.isSome)).length = min 5 3 :=
  reservoir_exact_size 3 (fun t => t - 1) [10, 20, 30, 40, 50]
    (fun t ht => by show t - 1 < t; omega)

/-- C7: the keyed sampler accepts a key exactly when `hash(key, b) < a`, and
the decision depends only on the key: in any stream, either every record with
that key is kept (the sample holds all its occurrences) or every one is
dropped (the sample holds none). -/
theorem keyed_sampler_decision (hk : String → Nat → Nat) (key : String)
    (a b : Nat) (ha : 0 < a) (hab : a ≤ b) :
    (accept hk key a b = true ↔ hk key b < a) ∧
    ∀ stream : List String,
      (keyed_sample hk stream a b).count key =
        if hk key b < a then stream.count key else 0 := by
  constructor
  · simp [accept]
  · intro stream
    unfold keyed_sample
    by_cases hacc : hk key b < a
    · rw [if_pos hacc]
      exact List.count_filter (by simpa using hacc)
    · rw [if_neg hacc]
      rw [List.count_eq_zero]
      intro hmem
      have := (List.mem_filter.mp hmem).2
      simp only [decide_eq_true_eq] at this
      exact hacc this

/-- Witness for C7 at `a = 3`, `b = 10` over a concrete 3-record stream. -/
theorem keyed_sampler_decision_witness :
    (keyed_sample (fun s m => s.length % m) ["ab", "xyz", "ab"] 3 10).count "ab" =
      if ("ab" : String).length % 10 < 3 then
        (["ab", "xyz", "ab"] : List String).count "ab" else 0 :=
  (keyed_sampler_decision (fun s m => s.length % m) "ab" 3 10
    (by omega) (by omega)).2 ["ab", "xyz", "ab"]

/-- C8: after a successful ingestion run from the all-zero trackers, every
tracker `Rs[j]` is an upper bound of the trailing-zero counts of all ingested
keys under hash function `j` and is attained by one of them (it is their
maximum); re-ingesting any previously-seen key returns the trackers unchanged;
and any single ingestion step never decreases any tracker. -/
theorem dc_tracker_invariant
    (h : String → Nat → Nat → Nat) (nd k : Nat) (keys : List String)
    (Rs : List Nat)
    (heq : ingest_stream h nd keys (List.replicate k 0) = some Rs) :
    Rs.length = k ∧
    (∀ j, j < k → ∀ key ∈ keys, rval h nd key j ≤ Rs.getD j 0) ∧
    (∀ j, j < k → keys ≠ [] → ∃ key ∈ keys, Rs.getD j 0 = rval h nd key j) ∧
    (∀ key ∈ keys, ingest_key h nd key Rs = some Rs) ∧
    (∀ key Rs1 Rs2, ingest_key h nd key Rs1 = some Rs2 →
      ∀ j, Rs1.getD j 0 ≤ Rs2.getD j 0) := by
  obtain ⟨hL, hS, hP⟩ := ingest_stream_char h nd keys _ Rs heq
  rw [List.length_replicate] at hL
  have hP' : ∀ j, j < k →
      Rs.getD j 0 = (keys.map (fun key => rval h nd key j)).foldl max 0 := by
    intro j hj
    have := hP j (by rw [List.length_replicate]; exact hj)
    rwa [getD_replicate_zero] at this
  have hub : ∀ j, j < k → ∀ key ∈ keys, rval h nd key j ≤ Rs.getD j 0 := by
    intro j hj key hkey
    rw [hP' j hj]
    exact (le_foldl_max _ 0).2 _ (List.mem_map_of_mem _ hkey)
  refine ⟨hL, hub, ?_, ?_, ?_⟩
  · intro j hj hne
    rw [hP' j hj]
    have hmem := foldl_max_zero_mem (keys.map (fun key => rval h nd key j))
      (by simpa using hne)
    obtain ⟨key, hkey, hkeyeq⟩ := List.mem_map.mp hmem
    exact ⟨key, hkey, hkeyeq.symm⟩
  · intro key hkey
    unfold ingest_key
    apply ingest_aux_id
    intro j hj
    rw [hL] at hj
    have hsome := hS key hkey j (by rw [List.length_replicate]; exact hj)
    rcases hr : get_r (h key nd (j + 1)) with _ | r
    · rw [hr] at hsome
      exact absurd hsome (by simp)
    · refine ⟨r, by simpa using hr, ?_⟩
      have hrv : rval h nd key j = r := by
        unfold rval
        rw [hr]
        rfl
      rw [← hrv]
      exact hub j hj key hkey
  · intro key Rs1 Rs2 h12 j
    obtain ⟨hL12, _, hP12⟩ := ingest_key_char h nd key Rs1 Rs2 h12
    by_cases hj : j < Rs1.length
    · rw [hP12 j hj]
      exact Nat.le_max_left _ _
    · rw [List.getD_eq_default _ _ (by omega),
        List.getD_eq_default _ _ (by rw [hL12]; omega)]

/-- Witness for C8: three keys (one repeated) on two trackers; re-ingesting
the repeated key leaves the trackers unchanged. -/
theorem dc_tracker_invariant_witness :
    ingest_key (fun key _ nr => key.length * nr) 8 "ab" [1, 2] = some [1, 2] :=
  (dc_tracker_invariant (fun key _ nr => key.length * nr) 8 2
    ["ab", "abc", "ab"] [1, 2] (by decide)).2.2.2.1 "ab" (by decide)

/-- C9: the final estimate is computed by splitting the per-function estimates
`2^Rs[j]` (after the injected shuffle, a permutation of them) into
`num_groups` buckets of `num_samples_per_group` estimates each — the buckets
partition the `k` per-function estimates — taking `np.median` of each bucket,
and returning the arithmetic mean of the `num_groups` medians. -/
theorem dc_estimate_aggregation
    (Rs : List Nat) (num_groups num_samples_per_group : Nat)
    (shuffled : List ℚ) (hg : 0 < num_groups)
    (hlen : Rs.length = num_groups * num_samples_per_group)
    (hperm : shuffled.Perm (raw_estimates Rs)) :
    (np_split shuffled num_groups).length = num_groups ∧
    (∀ chunk ∈ np_split shuffled num_groups, chunk.length = num_samples_per_group) ∧
    (np_split shuffled num_groups).flatten.Perm (raw_estimates Rs) ∧
    final_estimate shuffled num_groups =
      ((np_split shuffled num_groups).map np_median).sum / num_groups := by
  have hslen : shuffled.length = num_groups * num_samples_per_group := by
    rw [hperm.length_eq]
    unfold raw_estimates
    rw [List.length_map]
    exact hlen
  refine ⟨np_split_length _ _, np_split_chunk_length _ _ _ hg hslen, ?_, ?_⟩
  · rw [np_split_join _ _ _ hg hslen]
    exact hperm
  · simp only [final_estimate, np_mean]
    rw [List.length_map, np_split_length]

/-- Witness for C9: four trackers split into two groups of two, with the
identity shuffle. -/
theorem dc_estimate_aggregation_witness :
    (np_split (raw_estimates [0, 1, 2, 3]) 2).length = 2 ∧
    final_estimate (raw_estimates [0, 1, 2, 3]) 2 =
      ((np_split (raw_estimates [0, 1, 2, 3]) 2).map np_median).sum /
        ((2 : Nat) : ℚ) := by
  have hth := dc_estimate_aggregation [0, 1, 2, 3] 2 2 (raw_estimates [0, 1, 2, 3])
    (by omega) (by decide) (List.Perm.refl _)
  exact ⟨hth.1, hth.2.2.2⟩

/-- C10: a successful `update_key` (hence `insert_key`/`delete_key`) keeps the
length of `B` at `num_buckets * bits_per_counter` and leaves every bit outside
the `bits_per_counter`-bit slices at the key's hashed positions unchanged, and
a successful `update_counter` always returns exactly `bits_per_counter` bits. -/
theorem counting_filter_frame
    (h : String → Nat → Nat → Nat) (s : String) (B : List Bool)
    (num_buckets num_digits num_hash_functions bits_per_counter : Nat)
    (upd : String)
    (hbound : ∀ p ∈ hashPositions h s num_digits num_hash_functions, p < num_buckets)
    (hlen : B.length = num_buckets * bits_per_counter)
    (hsucc : (update_key h s B num_digits num_hash_functions bits_per_counter upd).2 =
      none) :
    (update_key h s B num_digits num_hash_functions bits_per_counter upd).1.length =
      num_buckets * bits_per_counter ∧
    (∀ i, (∀ p ∈ hashPositions h s num_digits num_hash_functions,
        i < p * bits_per_counter ∨ p * bits_per_counter + bits_per_counter ≤ i) →
      (update_key h s B num_digits num_hash_functions bits_per_counter upd).1[i]? =
        B[i]?) ∧
    (∀ (u r : List Bool) (ud : String),
      update_counter u bits_per_counter ud = .ok r → r.length = bits_per_counter) := by
  rcases hU : update_key h s B num_digits num_hash_functions bits_per_counter upd with ⟨B', e⟩
  rw [hU] at hsucc
  simp only at hsucc
  subst hsucc
  have heq : update_key_go (hashPositions h s num_digits num_hash_functions) B
      bits_per_counter (if upd = "insert" then "inc" else "dec") = (B', none) := by
    rw [← hU]
    rfl
  obtain ⟨hL, hF⟩ := update_key_go_frame num_buckets bits_per_counter _ B B' _
    hbound hlen heq
  exact ⟨hL, fun i hi => hF i hi,
    fun u r ud hok => update_counter_ok_length u r _ ud hok⟩

/-- Witness for C10: one hash function at position 0, `num_buckets = 2`,
`bits_per_counter = 3`; bit 5 lies outside the touched slice. -/
theorem counting_filter_frame_witness :
    (update_key (fun _ _ nr => nr - 1) "x"
      [false, false, false, false, false, false] 1 1 3 "insert").1.length = 2 * 3 ∧
    (update_key (fun _ _ nr => nr - 1) "x"
      [false, false, false, false, false, false] 1 1 3 "insert").1[5]? =
      ([false, false, false, false, false, false] : List Bool)[5]? ∧
    ([false, false, true] : List Bool).length = 3 := by
  have hth := counting_filter_frame (fun _ _ nr => nr - 1) "x"
    [false, false, false, false, false, false] 2 1 1 3 "insert"
    (by decide) (by decide) (by decide)
  exact ⟨hth.1, hth.2.1 5 (by decide),
    hth.2.2 [false, false, false] [false, false, true] "inc" rfl⟩

end CS5228
